import Mathlib

/-!
Verification of the pure logic of `tools/deploy/imagenet.py`.

The script's numeric state (Python floats and ints) is modelled over `ℚ`;
fallible operations (Python exceptions such as `ZeroDivisionError`) are
modelled with `Option`.
-/

set_option maxHeartbeats 1000000

namespace ImagenetDeploy

/-! ### AverageMeter (imagenet.py lines 19-46)

Fields follow the Python attributes `val`, `avg`, `sum`, `count`;
`__init__` sets all four to 0.  `update(val, n)` does
`sum += val * n; count += n; avg = sum / count`, and the division raises
`ZeroDivisionError` when `count` is zero, which `updateChecked` models
by returning `none`. -/

structure AverageMeter where
  val : ℚ
  avg : ℚ
  sum : ℚ
  count : ℚ
deriving DecidableEq

def AverageMeter.init : AverageMeter := ⟨0, 0, 0, 0⟩

def AverageMeter.update (m : AverageMeter) (v n : ℚ) : AverageMeter :=
  ⟨v, (m.sum + v * n) / (m.count + n), m.sum + v * n, m.count + n⟩

def AverageMeter.updateChecked (m : AverageMeter) (v n : ℚ) : Option AverageMeter :=
  if m.count + n = 0 then none else some (m.update v n)

/-- The `err` property: `100 - float(self.avg)`. -/
def AverageMeter.err (m : AverageMeter) : ℚ := 100 - m.avg

/-- Run a sequence of `update(v, n)` calls, aborting on division by zero. -/
def runUpdates : AverageMeter → List (ℚ × ℚ) → Option AverageMeter
  | m, [] => some m
  | m, p :: rest =>
    match m.updateChecked p.1 p.2 with
    | none => none
    | some m2 => runUpdates m2 rest

theorem runUpdates_spec (l : List (ℚ × ℚ)) : ∀ m : AverageMeter, 0 ≤ m.count →
    (∀ p ∈ l, 0 < p.2) →
    ∃ m2, runUpdates m l = some m2 ∧
      m2.sum = m.sum + (l.map (fun p => p.1 * p.2)).sum ∧
      m2.count = m.count + (l.map (fun p => p.2)).sum ∧
      (l = [] → m2 = m) ∧
      (l ≠ [] → m2.avg = m2.sum / m2.count) := by
  induction l with
  | nil =>
    intro m _ _
    exact ⟨m, rfl, by simp, by simp, fun _ => rfl, fun h => absurd rfl h⟩
  | cons p rest ih =>
    intro m hc hpos
    have hp : 0 < p.2 := hpos p (by simp)
    have hcn : 0 < m.count + p.2 := by linarith
    have hne : m.count + p.2 ≠ 0 := ne_of_gt hcn
    have hstep : runUpdates m (p :: rest) = runUpdates (m.update p.1 p.2) rest := by
      simp [runUpdates, AverageMeter.updateChecked, hne]
    have hc2 : 0 ≤ (m.update p.1 p.2).count := le_of_lt (by simpa [AverageMeter.update] using hcn)
    obtain ⟨m2, hrun, hsum, hcount, hnil, havg⟩ :=
      ih (m.update p.1 p.2) hc2 (fun q hq => hpos q (by simp [hq]))
    refine ⟨m2, by rw [hstep]; exact hrun, ?_, ?_, ?_, ?_⟩
    · rw [hsum]; simp [AverageMeter.update]; ring
    · rw [hcount]; simp [AverageMeter.update]; ring
    · intro h; exact absurd h (by simp)
    · intro _
      rcases eq_or_ne rest [] with hr | hr
      · subst hr
        have := hnil rfl
        subst this
        simp [AverageMeter.update]
      · exact havg hr

/-- C1: a freshly constructed `AverageMeter`, after a sequence of
`update(vᵢ, wᵢ)` calls with positive weights, has
`avg = (Σ vᵢ·wᵢ) / (Σ wᵢ)`; with the default weight 1 this is the
arithmetic mean of the values. -/
theorem claim_C1 :
    (∀ l : List (ℚ × ℚ), (∀ p ∈ l, 0 < p.2) →
      ∃ m, runUpdates AverageMeter.init l = some m ∧
        m.avg = (l.map (fun p => p.1 * p.2)).sum / (l.map (fun p => p.2)).sum) ∧
    (∀ vs : List ℚ, ∃ m, runUpdates AverageMeter.init (vs.map (fun v => (v, 1))) = some m ∧
      m.avg = vs.sum / (vs.length : ℚ)) := by
  have main : ∀ l : List (ℚ × ℚ), (∀ p ∈ l, 0 < p.2) →
      ∃ m, runUpdates AverageMeter.init l = some m ∧
        m.avg = (l.map (fun p => p.1 * p.2)).sum / (l.map (fun p => p.2)).sum := by
    intro l hpos
    obtain ⟨m, hrun, hsum, hcount, hnil, havg⟩ :=
      runUpdates_spec l AverageMeter.init le_rfl hpos
    refine ⟨m, hrun, ?_⟩
    rcases eq_or_ne l [] with hl | hl
    · subst hl
      have := hnil rfl
      subst this
      simp [AverageMeter.init]
    · rw [havg hl, hsum, hcount]
      simp [AverageMeter.init]
  refine ⟨main, fun vs => ?_⟩
  obtain ⟨m, hrun, havg⟩ := main (vs.map (fun v => (v, 1))) (by simp)
  refine ⟨m, hrun, ?_⟩
  rw [havg]
  congr 1
  · simp [Function.comp_def]
  · simp [Function.comp_def, List.map_const', List.sum_replicate, nsmul_eq_mul]

/-- Witness for C1 at the concrete input `[(3, 2)]`. -/
theorem claim_C1_witness :
    (∀ p ∈ [((3 : ℚ), (2 : ℚ))], 0 < p.2) ∧
    ∃ m, runUpdates AverageMeter.init [((3 : ℚ), (2 : ℚ))] = some m ∧
      m.avg = ([((3 : ℚ), (2 : ℚ))].map (fun p => p.1 * p.2)).sum /
        ([((3 : ℚ), (2 : ℚ))].map (fun p => p.2)).sum :=
  ⟨by decide, claim_C1.1 _ (by decide)⟩

/-- C2: after any sequence of `update` calls (including none), `err`
equals `100 - avg`. -/
theorem claim_C2 (l : List (ℚ × ℚ)) (m : AverageMeter)
    (_h : runUpdates AverageMeter.init l = some m) :
    m.err = 100 - m.avg := rfl

/-- Witness for C2 at the empty update sequence. -/
theorem claim_C2_witness :
    AverageMeter.init.err = 100 - AverageMeter.init.avg :=
  claim_C2 [] AverageMeter.init rfl

/-- C10: with every weight at least 1, the running count stays positive
and no division by zero occurs; with a first weight of 0 the first
`update` divides by a zero count and fails. -/
theorem claim_C10 :
    (∀ l : List (ℚ × ℚ), (∀ p ∈ l, 1 ≤ p.2) →
      (runUpdates AverageMeter.init l).isSome = true) ∧
    (∀ v : ℚ, AverageMeter.updateChecked AverageMeter.init v 0 = none) := by
  constructor
  · intro l hw
    obtain ⟨m, hrun, -⟩ :=
      runUpdates_spec l AverageMeter.init le_rfl (fun p hp => lt_of_lt_of_le one_pos (hw p hp))
    rw [hrun]; rfl
  · intro v
    simp [AverageMeter.updateChecked, AverageMeter.init]

/-- Witness for C10 at the concrete input `[(5, 1)]`. -/
theorem claim_C10_witness :
    (runUpdates AverageMeter.init [((5 : ℚ), (1 : ℚ))]).isSome = true :=
  claim_C10.1 _ (by decide)

/-! ### ProgressMeter (imagenet.py lines 49-65)

`_get_batch_fmt_str(num_batches)` computes
`num_digits = len(str(num_batches // 1))` and builds the format string
that renders the batch index right-aligned in a field of `num_digits`
characters, then `display(batch)` renders
`prefix + batch_fmt_str.format(batch)` as the first column of the line.
Python integer rendering `str(n)` is exactly `Nat.repr` for
nonnegative `n`. -/

/-- Structurally recursive decimal rendering, used to reason about the
fuelled `Nat.toDigitsCore` underlying `Nat.repr`. -/
def digitsRec (n : ℕ) : List Char :=
  if n / 10 = 0 then [Nat.digitChar (n % 10)]
  else digitsRec (n / 10) ++ [Nat.digitChar (n % 10)]
termination_by n
decreasing_by exact Nat.div_lt_self (by omega) (by omega)

theorem toDigitsCore_eq_digitsRec :
    ∀ (fuel n : ℕ) (ds : List Char), n < fuel →
      Nat.toDigitsCore 10 fuel n ds = digitsRec n ++ ds := by
  intro fuel
  induction fuel with
  | zero => intro n ds h; omega
  | succ fuel ih =>
    intro n ds h
    rw [Nat.toDigitsCore, digitsRec]
    by_cases h10 : n / 10 = 0
    · simp [h10]
    · have hfuel : n / 10 < fuel := by
        have h1 : n / 10 < n := Nat.div_lt_self (by omega) (by omega)
        omega
      simp only [h10, if_false]
      rw [ih (n / 10) _ hfuel]
      simp

theorem repr_eq_digitsRec (n : ℕ) : (Nat.repr n).data = digitsRec n := by
  show (Nat.toDigits 10 n).asString.data = digitsRec n
  rw [Nat.toDigits, toDigitsCore_eq_digitsRec (n + 1) n [] (Nat.lt_succ_self n)]
  simp [List.asString]

theorem digitsRec_length_pos (n : ℕ) : 1 ≤ (digitsRec n).length := by
  rw [digitsRec]
  by_cases h : n / 10 = 0 <;> simp [h]

theorem digitsRec_length_mono : ∀ n m : ℕ, m ≤ n →
    (digitsRec m).length ≤ (digitsRec n).length := by
  intro n
  induction n using Nat.strong_induction_on with
  | _ n ih =>
    intro m hmn
    by_cases hm : m / 10 = 0
    · have h1 : (digitsRec m).length = 1 := by rw [digitsRec]; simp [hm]
      rw [h1]
      exact digitsRec_length_pos n
    · have hn : ¬ n / 10 = 0 := by
        intro h0
        have : m / 10 ≤ n / 10 := Nat.div_le_div_right hmn
        omega
      have hrec : n / 10 < n := Nat.div_lt_self (by omega) (by omega)
      have hmlen : (digitsRec m).length = (digitsRec (m / 10)).length + 1 := by
        conv_lhs => rw [digitsRec]
        simp [hm]
      have hnlen : (digitsRec n).length = (digitsRec (n / 10)).length + 1 := by
        conv_lhs => rw [digitsRec]
        simp [hn]
      have := ih (n / 10) hrec (m / 10) (Nat.div_le_div_right hmn)
      omega

/-- `len(str(n))` in Python. -/
def numDigits (n : ℕ) : ℕ := (Nat.repr n).length

theorem numDigits_mono (m n : ℕ) (h : m ≤ n) : numDigits m ≤ numDigits n := by
  show (Nat.repr m).data.length ≤ (Nat.repr n).data.length
  rw [repr_eq_digitsRec, repr_eq_digitsRec]
  exact digitsRec_length_mono n m h

/-- Python `format(n, str(w) + "d")`: decimal digits of `n`
right-aligned in a field of `w` characters, padded with spaces. -/
def formatIntWidth (w : ℕ) (n : ℕ) : String :=
  String.mk (List.replicate (w - (Nat.repr n).length) ' ' ++ (Nat.repr n).data)

/-- The first display column built by `_get_batch_fmt_str` plus
`.format(batch)`: the bracketed `batch/num_batches` token. -/
def batchFmtEntry (num_batches batch : ℕ) : String :=
  "[" ++ formatIntWidth (numDigits num_batches) batch ++ "/" ++
    formatIntWidth (numDigits num_batches) num_batches ++ "]"

/-- The first entry of the line printed by `ProgressMeter.display`. -/
def displayBatchPart (pfx : String) (num_batches batch : ℕ) : String :=
  pfx ++ batchFmtEntry num_batches batch

/-- Substring test, modelling the reading "the line contains ...". -/
def strContains (s pat : String) : Bool :=
  (List.range (s.length + 1)).any
    (fun i => ((s.data.drop i).take pat.data.length) == pat.data)

theorem string_mk_append (l1 l2 : List Char) :
    String.mk l1 ++ String.mk l2 = String.mk (l1 ++ l2) := rfl

/-- Counterexample to C4 as stated: with `num_batches = 100` and
`batch = 5` the rendered column is space-padded `"[  5/100]"`; it does
not contain the zero-padded index `"005"`. -/
theorem claim_C4_cex :
    displayBatchPart (String.mk []) 100 5 = "[  5/100]" ∧
    strContains (displayBatchPart (String.mk []) 100 5) ("005") = false ∧
    strContains (displayBatchPart (String.mk []) 100 5) ("[005/100]") = false := by
  refine ⟨by decide, by decide, by decide⟩

/-- C4 amended: the batch index is rendered right-aligned and
space-padded (not zero-padded) to the digit width of `num_batches`,
and for `batch ≤ num_batches` the padded field is exactly that wide. -/
theorem claim_C4 (pfx : String) (nb b : ℕ) (h : b ≤ nb) :
    displayBatchPart pfx nb b =
      pfx ++ "[" ++
        String.mk (List.replicate (numDigits nb - numDigits b) ' ') ++
        String.mk (Nat.repr b).data ++ "/" ++ Nat.repr nb ++ "]" ∧
    (numDigits nb - numDigits b) + numDigits b = numDigits nb := by
  constructor
  · show pfx ++ ("[" ++ formatIntWidth (numDigits nb) b ++ "/" ++
      formatIntWidth (numDigits nb) nb ++ "]") = _
    have h1 : formatIntWidth (numDigits nb) b =
        String.mk (List.replicate (numDigits nb - numDigits b) ' ') ++
          String.mk (Nat.repr b).data := by
      rw [string_mk_append]; rfl
    have h2 : formatIntWidth (numDigits nb) nb = Nat.repr nb := by
      unfold formatIntWidth numDigits
      rw [Nat.sub_self]
      rfl
    rw [h1, h2]
    simp [String.append_assoc]
  · have := numDigits_mono b nb h
    omega

/-- Witness for the amended C4 at `num_batches = 100`, `batch = 5`. -/
theorem claim_C4_witness :
    5 ≤ 100 ∧
    (displayBatchPart (String.mk []) 100 5 =
      String.mk [] ++ "[" ++
        String.mk (List.replicate (numDigits 100 - numDigits 5) ' ') ++
        String.mk (Nat.repr 5).data ++ "/" ++ Nat.repr 100 ++ "]" ∧
    (numDigits 100 - numDigits 5) + numDigits 5 = numDigits 100) :=
  ⟨by decide, claim_C4 (String.mk []) 100 5 (by decide)⟩

/-! ### accuracy (imagenet.py lines 104-120)

`output` is the score matrix (one row of class scores per example) and
`target` the label vector.  `output.topk(maxk, 1, True, True)` returns,
per row, the indices of the `maxk` largest scores in decreasing order;
ties are broken deterministically here by smaller class index.  `pred`
is that index matrix transposed, `correct` compares it with the
broadcast target, and each `k` contributes
`correct[:k].view(-1).float().sum(0) * (100.0 / batch_size)`. -/

def idxLe (row : List ℚ) (a b : ℕ) : Prop :=
  row.getD b 0 < row.getD a 0 ∨ (row.getD a 0 = row.getD b 0 ∧ a ≤ b)

instance (row : List ℚ) : DecidableRel (idxLe row) := fun a b => by
  unfold idxLe
  infer_instance

instance (row : List ℚ) : IsTotal ℕ (idxLe row) := ⟨by
  intro a b
  rcases lt_trichotomy (row.getD a 0) (row.getD b 0) with h | h | h
  · exact Or.inr (Or.inl h)
  · rcases Nat.le_total a b with hab | hab
    · exact Or.inl (Or.inr ⟨h, hab⟩)
    · exact Or.inr (Or.inr ⟨h.symm, hab⟩)
  · exact Or.inl (Or.inl h)⟩

instance (row : List ℚ) : IsTrans ℕ (idxLe row) := ⟨by
  intro a b c hab hbc
  rcases hab with h1 | ⟨h1, h1le⟩
  · rcases hbc with h2 | ⟨h2, _⟩
    · exact Or.inl (lt_trans h2 h1)
    · exact Or.inl (h2 ▸ h1)
  · rcases hbc with h2 | ⟨h2, h2le⟩
    · exact Or.inl (h2.trans_le (le_of_eq h1.symm))
    · exact Or.inr ⟨h1.trans h2, le_trans h1le h2le⟩⟩

/-- Class indices ranked by decreasing score (stable in the index):
the ranking whose `maxk`-prefix `torch.topk` returns per row. -/
def topIdx (row : List ℚ) : List ℕ :=
  List.insertionSort (idxLe row) (List.range row.length)

theorem topIdx_perm (row : List ℚ) :
    List.Perm (topIdx row) (List.range row.length) :=
  List.perm_insertionSort _ _

theorem topIdx_nodup (row : List ℚ) : (topIdx row).Nodup :=
  ((topIdx_perm row).nodup_iff).mpr (List.nodup_range _)

theorem topIdx_length (row : List ℚ) : (topIdx row).length = row.length := by
  simpa using (topIdx_perm row).length_eq

theorem topIdx_sorted (row : List ℚ) : List.Sorted (idxLe row) (topIdx row) :=
  List.sorted_insertionSort _ _

/-- `accuracy(output, target, topk)` of imagenet.py. -/
def accuracy (output : List (List ℚ)) (target : List ℕ) (topk : List ℕ) :
    List ℚ :=
  let maxk := topk.foldl max 0
  let batch_size := target.length
  let pred := output.map (fun row => (topIdx row).take maxk)
  let predT := (List.range maxk).map (fun j => pred.map (fun p => p.getD j 0))
  let correct := predT.map
    (fun rowj => List.zipWith (fun a t => a == t) rowj target)
  topk.map (fun k =>
    (((correct.take k).flatten.countP (fun b => b) : ℕ) : ℚ) *
      (100 / (batch_size : ℚ)))

/-- Spec reading: the true label is among the `k` highest-scored
classes of the row. -/
def inTopK (row : List ℚ) (t k : ℕ) : Bool := decide (t ∈ (topIdx row).take k)

/-- Spec reading of top-k accuracy: 100 times the fraction of examples
whose true label is among the `k` highest-scored classes. -/
def specTopkAcc (output : List (List ℚ)) (target : List ℕ) (k : ℕ) : ℚ :=
  100 * ((List.zipWith (fun row t => inTopK row t k) output target).countP
      (fun b => b) : ℕ) / (target.length : ℚ)

/-! Counting helpers. -/

theorem countP_eq_sum_boolToNat (l : List α) (p : α → Bool) :
    l.countP p = (l.map (fun a => if p a then 1 else 0)).sum := by
  induction l with
  | nil => rfl
  | cons a l ih => simp [List.countP_cons, ih, Nat.add_comm]

theorem sum_map_add_nat (l : List β) (f g : β → ℕ) :
    (l.map (fun b => f b + g b)).sum = (l.map f).sum + (l.map g).sum := by
  induction l with
  | nil => rfl
  | cons b l ih => simp only [List.map_cons, List.sum_cons, ih]; omega

theorem sum_countP_swap (l1 : List α) (l2 : List β) (P : α → β → Bool) :
    (l1.map (fun a => l2.countP (fun b => P a b))).sum =
    (l2.map (fun b => l1.countP (fun a => P a b))).sum := by
  induction l1 with
  | nil => simp [List.countP_nil, List.map_const', List.sum_replicate]
  | cons a l1 ih =>
    simp only [List.map_cons, List.sum_cons, ih]
    have hexp : (l2.map (fun b => List.countP (fun x => P x b) (a :: l1))).sum =
        (l2.map (fun b =>
          List.countP (fun x => P x b) l1 + if P a b then 1 else 0)).sum := by
      congr 1
      apply List.map_congr_left
      intro b _
      simp [List.countP_cons]
    rw [hexp, sum_map_add_nat, ← countP_eq_sum_boolToNat]
    have heta : List.countP (P a) l2 = List.countP (fun b => P a b) l2 := rfl
    omega

theorem countP_flatten_map (l : List α) (f : α → List β) (p : β → Bool) :
    ((l.map f).flatten.countP p) = (l.map (fun a => (f a).countP p)).sum := by
  induction l with
  | nil => rfl
  | cons a l ih => simp [List.countP_append, ih]

theorem zipWith_eq_map_zip (f : α → β → γ) :
    ∀ (l1 : List α) (l2 : List β),
      List.zipWith f l1 l2 = (l1.zip l2).map (fun q => f q.1 q.2)
  | [], _ => by simp
  | _ :: _, [] => by simp
  | a :: l1, b :: l2 => by simp [zipWith_eq_map_zip f l1 l2]

theorem countP_range_getD (p : List ℕ) (t : ℕ) :
    ∀ k, k ≤ p.length → p.Nodup →
      (List.range k).countP (fun j => p.getD j 0 == t) =
      (if t ∈ p.take k then 1 else 0) := by
  intro k
  induction k with
  | zero => intro _ _; simp
  | succ k ih =>
    intro hk hnd
    have hk' : k < p.length := by omega
    have hgetD : p.getD k 0 = p[k] := List.getD_eq_getElem _ _ hk'
    have hnotin : p[k] ∉ p.take k := by
      intro hmem
      obtain ⟨i, hi, hieq⟩ := List.getElem_of_mem hmem
      have hlt : i < k := by
        have h2 := hi
        simp [List.length_take] at h2
        omega
      rw [List.getElem_take] at hieq
      have : i = k := hnd.getElem_inj_iff.mp hieq
      omega
    have htake : p.take (k + 1) = p.take k ++ [p[k]] := by
      rw [List.take_succ, List.getElem?_eq_getElem hk']
      rfl
    have hsing : List.countP (fun j => p.getD j 0 == t) [k] =
        if p[k] = t then 1 else 0 := by
      simp only [List.countP_cons, List.countP_nil, Nat.zero_add, hgetD,
        beq_iff_eq]
    rw [List.range_succ, List.countP_append, ih (by omega) hnd, htake, hsing]
    by_cases h2 : p[k] = t
    · have h1 : t ∉ p.take k := h2 ▸ hnotin
      rw [if_neg h1, if_pos h2,
        if_pos (List.mem_append_right _ (by simp [h2.symm]))]
    · by_cases h1 : t ∈ p.take k
      · rw [if_pos h1, if_neg h2, if_pos (List.mem_append_left _ h1)]
      · rw [if_neg h1, if_neg h2, if_neg ?_]
        intro hmem
        rcases List.mem_append.mp hmem with h | h
        · exact h1 h
        · exact h2 (List.mem_singleton.mp h).symm

theorem seed_le_foldl_max (l : List ℕ) : ∀ a, a ≤ l.foldl max a := by
  induction l with
  | nil => intro a; exact le_rfl
  | cons x l ih => intro a; exact le_trans (le_max_left a x) (ih (max a x))

theorem le_foldl_max (l : List ℕ) : ∀ a, ∀ k ∈ l, k ≤ l.foldl max a := by
  induction l with
  | nil => intro a k hk; cases hk
  | cons x l ih =>
    intro a k hk
    rcases List.mem_cons.mp hk with rfl | hk
    · exact le_trans (le_max_right a k) (seed_le_foldl_max l (max a k))
    · exact ih (max a x) k hk

theorem foldl_max_le_bound (l : List ℕ) (C : ℕ) (hC : ∀ k ∈ l, k ≤ C) :
    ∀ a, a ≤ C → l.foldl max a ≤ C := by
  induction l with
  | nil => intro a ha; exact ha
  | cons x l ih =>
    intro a ha
    exact ih (fun k hk => hC k (by simp [hk])) _
      (max_le ha (hC x (by simp)))

/-- The code's `accuracy` computes, entry by entry, the spec's top-k
accuracy: 100 times the fraction of examples whose label is among the
`k` highest-scored classes. -/
theorem accuracy_eq_spec (output : List (List ℚ)) (target : List ℕ)
    (topk : List ℕ) (C : ℕ)
    (hrow : ∀ row ∈ output, row.length = C)
    (hkC : ∀ k ∈ topk, k ≤ C) :
    accuracy output target topk =
      topk.map (fun k => specTopkAcc output target k) := by
  simp only [accuracy]
  apply List.map_congr_left
  intro k hk
  have hkmax : k ≤ topk.foldl max 0 := le_foldl_max topk 0 k hk
  have hmaxC : topk.foldl max 0 ≤ C :=
    foldl_max_le_bound topk C hkC 0 (Nat.zero_le C)
  generalize hM : topk.foldl max 0 = maxk at hkmax hmaxC ⊢
  -- step 1: fuse the two maps building `correct` from the transpose
  rw [List.map_map]
  -- step 2: push `take k` inside the outer map over `range maxk`
  rw [← List.map_take, List.take_range, min_eq_left hkmax]
  -- step 3: flatten-count as a sum of per-rank counts
  rw [countP_flatten_map]
  -- step 4: each per-rank count as a count over zipped example pairs
  have h4 : ∀ j : ℕ,
      (List.zipWith (fun a t => a == t)
        ((output.map (fun row => (topIdx row).take maxk)).map
          (fun p => p.getD j 0)) target).countP (fun b => b) =
      (output.zip target).countP
        (fun q => ((topIdx q.1).take maxk).getD j 0 == q.2) := by
    intro j
    rw [List.map_map, List.zipWith_map_left, zipWith_eq_map_zip,
      List.countP_map]
    rfl
  have h4m : ((List.range k).map (fun j =>
      ((Function.comp (fun rowj => List.zipWith (fun a t => a == t) rowj target)
        (fun j => (output.map (fun row => (topIdx row).take maxk)).map
          (fun p => p.getD j 0))) j).countP (fun b => b))).sum =
      ((List.range k).map (fun j => (output.zip target).countP
        (fun q => ((topIdx q.1).take maxk).getD j 0 == q.2))).sum := by
    congr 1
    apply List.map_congr_left
    intro j _
    simp only [Function.comp_def]
    exact h4 j
  rw [h4m]
  -- step 5: swap the two summations
  rw [sum_countP_swap (List.range k) (output.zip target)
    (fun j q => ((topIdx q.1).take maxk).getD j 0 == q.2)]
  -- step 6: for each example the inner count is a top-k membership bit
  have h6 : ((output.zip target).map (fun q => (List.range k).countP
      (fun j => ((topIdx q.1).take maxk).getD j 0 == q.2))).sum =
      ((output.zip target).map
        (fun q => if inTopK q.1 q.2 k = true then 1 else 0)).sum := by
    congr 1
    apply List.map_congr_left
    intro q hq
    have hq1 : q.1 ∈ output := (List.of_mem_zip hq).1
    have hlenq : ((topIdx q.1).take maxk).length = maxk := by
      rw [List.length_take, topIdx_length, hrow q.1 hq1]
      exact min_eq_left hmaxC
    have hnd : ((topIdx q.1).take maxk).Nodup :=
      List.Nodup.sublist (List.take_sublist _ _) (topIdx_nodup q.1)
    rw [countP_range_getD ((topIdx q.1).take maxk) q.2 k
      (by rw [hlenq]; exact hkmax) hnd]
    rw [List.take_take, min_eq_left hkmax]
    simp only [inTopK, decide_eq_true_eq]
  rw [h6, ← countP_eq_sum_boolToNat]
  -- step 7: the spec side is the same membership count
  have h7 : (List.zipWith (fun row t => inTopK row t k) output target).countP
      (fun b => b) =
      (output.zip target).countP (fun q => inTopK q.1 q.2 k) := by
    rw [zipWith_eq_map_zip, List.countP_map]
    rfl
  simp only [specTopkAcc, h7]
  ring

/-- C3: `accuracy` returns, for each `k` in `topk`, 100 times the
fraction of examples whose true label is among the `k` highest-scored
classes for that example. -/
theorem claim_C3 (output : List (List ℚ)) (target : List ℕ)
    (topk : List ℕ) (C : ℕ)
    (_hlen : output.length = target.length)
    (hrow : ∀ row ∈ output, row.length = C)
    (_htar : ∀ t ∈ target, t < C)
    (_hne : topk ≠ [])
    (hkC : ∀ k ∈ topk, k ≤ C) :
    accuracy output target topk =
      topk.map (fun k => specTopkAcc output target k) :=
  accuracy_eq_spec output target topk C hrow hkC

/-- Witness for C3 at a concrete 2-example, 2-class batch. -/
theorem claim_C3_witness :
    ([[(1 : ℚ), 0], [0, 1]].length = [0, 1].length) ∧
    (∀ row ∈ [[(1 : ℚ), 0], [0, 1]], row.length = 2) ∧
    (∀ t ∈ [0, 1], t < 2) ∧
    ([1, 2] ≠ ([] : List ℕ)) ∧
    (∀ k ∈ [1, 2], k ≤ 2) ∧
    accuracy [[(1 : ℚ), 0], [0, 1]] [0, 1] [1, 2] =
      [1, 2].map (fun k => specTopkAcc [[(1 : ℚ), 0], [0, 1]] [0, 1] k) :=
  ⟨by decide, by decide, by decide, by decide, by decide,
    claim_C3 [[(1 : ℚ), 0], [0, 1]] [0, 1] [1, 2] 2 (by decide) (by decide)
      (by decide) (by decide) (by decide)⟩

/-- If the true class has the strictly highest score of its row, it is
ranked first. -/
theorem topIdx_head_of_strict (row : List ℚ) (t : ℕ) (ht : t < row.length)
    (hstrict : ∀ j < row.length, j ≠ t → row.getD j 0 < row.getD t 0) :
    ∃ rest, topIdx row = t :: rest := by
  have hmem : t ∈ topIdx row :=
    (topIdx_perm row).mem_iff.mpr (List.mem_range.mpr ht)
  cases htop : topIdx row with
  | nil => rw [htop] at hmem; cases hmem
  | cons x rest =>
    by_cases hx : x = t
    · exact ⟨rest, by rw [hx]⟩
    · exfalso
      rw [htop] at hmem
      rcases List.mem_cons.mp hmem with heq | hmem2
      · exact hx heq.symm
      · have hsort := topIdx_sorted row
        rw [htop] at hsort
        have hxt : idxLe row x t := (List.sorted_cons.mp hsort).1 t hmem2
        have hxmem : x ∈ List.range row.length :=
          (topIdx_perm row).mem_iff.mp
            (by rw [htop]; exact List.mem_cons_self x rest)
        have hxlt : x < row.length := List.mem_range.mp hxmem
        have hlt := hstrict x hxlt hx
        rcases hxt with h | ⟨h, -⟩
        · linarith
        · exact (ne_of_lt hlt) h

/-- C5: on a batch where the true class of every example has the
strictly highest score, `accuracy` yields 100 for every `1 ≤ k ≤ C`. -/
theorem claim_C5 (output : List (List ℚ)) (target : List ℕ) (C k : ℕ)
    (hlen : output.length = target.length)
    (hne : output ≠ [])
    (hrow : ∀ row ∈ output, row.length = C)
    (htar : ∀ t ∈ target, t < C)
    (hstrict : ∀ q ∈ output.zip target, ∀ j < C, j ≠ q.2 →
      q.1.getD j 0 < q.1.getD q.2 0)
    (hk1 : 1 ≤ k) (hkC : k ≤ C) :
    accuracy output target [k] = [(100 : ℚ)] := by
  rw [accuracy_eq_spec output target [k] C hrow
    (by intro x hx; rw [List.mem_singleton] at hx; exact hx ▸ hkC)]
  have hspec : specTopkAcc output target k = 100 := by
    unfold specTopkAcc
    have hall : (List.zipWith (fun row t => inTopK row t k) output
        target).countP (fun b => b) =
        (List.zipWith (fun row t => inTopK row t k) output target).length := by
      rw [List.countP_eq_length]
      intro b hb
      rw [zipWith_eq_map_zip] at hb
      obtain ⟨q, hq, rfl⟩ := List.mem_map.mp hb
      have hq1 : q.1 ∈ output := (List.of_mem_zip hq).1
      have hq2 : q.2 ∈ target := (List.of_mem_zip hq).2
      have hC : q.1.length = C := hrow q.1 hq1
      have htC : q.2 < q.1.length := by rw [hC]; exact htar q.2 hq2
      obtain ⟨rest, hhead⟩ := topIdx_head_of_strict q.1 q.2 htC
        (fun j hj hjne => hstrict q hq j (by rwa [hC] at hj) hjne)
      cases k with
      | zero => omega
      | succ k2 => simp [inTopK, hhead]
    rw [hall, List.length_zipWith, hlen, min_self]
    have htne : target ≠ [] := by
      intro h0
      rw [h0] at hlen
      exact hne (List.length_eq_zero.mp hlen)
    have hbs : (target.length : ℚ) ≠ 0 := by
      have := List.length_pos.mpr htne
      exact_mod_cast Nat.pos_iff_ne_zero.mp this
    field_simp
  simp [hspec]

/-- Witness for C5 at a concrete diagonal-dominant batch. -/
theorem claim_C5_witness :
    ([[(2 : ℚ), 1], [1, 2]].length = [0, 1].length) ∧
    ([[(2 : ℚ), 1], [1, 2]] ≠ ([] : List (List ℚ))) ∧
    (∀ row ∈ [[(2 : ℚ), 1], [1, 2]], row.length = 2) ∧
    (∀ t ∈ [0, 1], t < 2) ∧
    (∀ q ∈ [[(2 : ℚ), 1], [1, 2]].zip [0, 1], ∀ j < 2, j ≠ q.2 →
      q.1.getD j 0 < q.1.getD q.2 0) ∧
    accuracy [[(2 : ℚ), 1], [1, 2]] [0, 1] [1] = [(100 : ℚ)] :=
  ⟨by decide, by decide, by decide, by decide, by decide,
    claim_C5 [[(2 : ℚ), 1], [1, 2]] [0, 1] 2 1 (by decide) (by decide)
      (by decide) (by decide) (by decide) (by decide) (by decide)⟩

/-- Top-k membership, hence the spec accuracy, is monotone in `k`. -/
theorem specTopkAcc_mono (output : List (List ℚ)) (target : List ℕ)
    (k1 k2 : ℕ) (h : k1 ≤ k2) :
    specTopkAcc output target k1 ≤ specTopkAcc output target k2 := by
  unfold specTopkAcc
  have hcnt : (List.zipWith (fun row t => inTopK row t k1) output
      target).countP (fun b => b) ≤
      (List.zipWith (fun row t => inTopK row t k2) output target).countP
        (fun b => b) := by
    rw [zipWith_eq_map_zip, zipWith_eq_map_zip, List.countP_map,
      List.countP_map]
    apply List.countP_mono_left
    intro q _
    simp only [Function.comp_def, inTopK, decide_eq_true_eq]
    intro hmem
    have hsub : (topIdx q.1).take k1 = ((topIdx q.1).take k2).take k1 := by
      rw [List.take_take, min_eq_left h]
    rw [hsub] at hmem
    exact List.take_subset _ _ hmem
  have h100 : (0 : ℚ) ≤ 100 := by norm_num
  exact div_le_div_of_nonneg_right
    (mul_le_mul_of_nonneg_left (Nat.cast_le.mpr hcnt) h100)
    (Nat.cast_nonneg _)

/-- C9: within one `accuracy` call, the value computed for the larger
`k` is at least the value computed for the smaller `k`. -/
theorem claim_C9 (output : List (List ℚ)) (target : List ℕ)
    (C k1 k2 : ℕ)
    (hrow : ∀ row ∈ output, row.length = C)
    (h12 : k1 ≤ k2) (hk2C : k2 ≤ C) :
    (accuracy output target [k1, k2]).getD 0 0 ≤
      (accuracy output target [k1, k2]).getD 1 0 := by
  rw [accuracy_eq_spec output target [k1, k2] C hrow ?hkc]
  case hkc =>
    intro x hx
    rcases List.mem_cons.mp hx with rfl | hx2
    · omega
    · rw [List.mem_singleton] at hx2
      omega
  simp only [List.map_cons, List.map_nil, List.getD_cons_zero,
    List.getD_cons_succ]
  exact specTopkAcc_mono output target k1 k2 h12

/-- Witness for C9 at a concrete batch with `k1 = 1 ≤ k2 = 2`. -/
theorem claim_C9_witness :
    (∀ row ∈ [[(1 : ℚ), 2], [2, 1]], row.length = 2) ∧
    (accuracy [[(1 : ℚ), 2], [2, 1]] [0, 1] [1, 2]).getD 0 0 ≤
      (accuracy [[(1 : ℚ), 2], [2, 1]] [0, 1] [1, 2]).getD 1 0 :=
  ⟨by decide,
    claim_C9 [[(1 : ℚ), 2], [2, 1]] [0, 1] 2 1 2 (by decide) (by decide)
      (by decide)⟩

/-! ### TorchModel (imagenet.py lines 126-148) -/

/-- `TorchModel.convert_outputs(self, batched_inputs, inputs, results)`
(lines 136-138): "no postprocessing step is needed for pytorch model",
it returns `results`. -/
def TorchModel.convert_outputs (batched_inputs : α) (inputs : β)
    (results : γ) : γ :=
  results

def TorchModel.get_input_names : List String := ["images"]

def TorchModel.get_output_names : List String := ["prob"]

/-- C7: `convert_outputs` is the identity on `results` for every
`batched_inputs`, `inputs` and `results`. -/
theorem claim_C7 : ∀ (α β γ : Type) (b : α) (i : β) (r : γ),
    TorchModel.convert_outputs b i r = r :=
  fun _ _ _ _ _ _ => rfl

/-! ### validate (imagenet.py lines 68-101)

The loop state holds the three meters created at lines 69-71; the model
is a black-box function from a batch to a score matrix, and the
measured per-iteration wall time is a black-box function of the
iteration index.  Each printed line is modelled as an event:
`progress i` for `progress.display(i)` and the two final summary
lines. -/

structure Batch where
  imgCount : ℕ
  target : List ℕ
deriving DecidableEq

inductive PrintEvent
  | progress (i : ℕ)
  | accSummary (a1 a5 : ℚ)
  | errSummary (e1 e5 : ℚ)
deriving DecidableEq

structure ValState where
  batch_time : AverageMeter
  top1 : AverageMeter
  top5 : AverageMeter
deriving DecidableEq

def validateInit : ValState :=
  ⟨AverageMeter.init, AverageMeter.init, AverageMeter.init⟩

/-- The `for i, data in enumerate(val_loader)` loop body (lines
81-97): compute `output`, take `acc1, acc5 = accuracy(output, target,
topk=(1, 5))`, update the meters, and display progress every
`print_freq` iterations.  Returns the final state, the print events in
order, and the batches in processing order. -/
def validateLoop (model : Batch → List (List ℚ)) (dur : ℕ → ℚ)
    (print_freq : ℕ) :
    ℕ → ValState → List Batch → ValState × List PrintEvent × List Batch
  | _, st, [] => (st, [], [])
  | i, st, b :: rest =>
    let output := model b
    let accs := accuracy output b.target [1, 5]
    let st2 : ValState :=
      ⟨st.batch_time.update (dur i) 1,
        st.top1.update (accs.getD 0 0) (b.imgCount : ℚ),
        st.top5.update (accs.getD 1 0) (b.imgCount : ℚ)⟩
    let evs := if i % print_freq = 0 then [PrintEvent.progress i] else []
    let r := validateLoop model dur print_freq (i + 1) st2 rest
    (r.1, evs ++ r.2.1, b :: r.2.2)

/-- `validate(val_loader, model)`: one pass over the batches, then the
`Acc@1/Acc@5` summary line and the `Err@1/Err@5` summary line. -/
def validate (model : Batch → List (List ℚ)) (dur : ℕ → ℚ)
    (print_freq : ℕ) (batches : List Batch) :
    ValState × List PrintEvent × List Batch :=
  let r := validateLoop model dur print_freq 0 validateInit batches
  (r.1,
    r.2.1 ++ [PrintEvent.accSummary r.1.top1.avg r.1.top5.avg,
      PrintEvent.errSummary r.1.top1.err r.1.top5.err],
    r.2.2)

theorem validateLoop_trace (model : Batch → List (List ℚ)) (dur : ℕ → ℚ)
    (print_freq : ℕ) :
    ∀ (batches : List Batch) (i : ℕ) (st : ValState),
      (validateLoop model dur print_freq i st batches).2.2 = batches := by
  intro batches
  induction batches with
  | nil => intro i st; rfl
  | cons b rest ih =>
    intro i st
    simp only [validateLoop]
    rw [ih]

theorem validateLoop_events (model : Batch → List (List ℚ)) (dur : ℕ → ℚ)
    (print_freq : ℕ) :
    ∀ (batches : List Batch) (i : ℕ) (st : ValState),
      ∀ e ∈ (validateLoop model dur print_freq i st batches).2.1,
        ∃ j, e = PrintEvent.progress j := by
  intro batches
  induction batches with
  | nil => intro i st e he; cases he
  | cons b rest ih =>
    intro i st e he
    simp only [validateLoop] at he
    rcases List.mem_append.mp he with h | h
    · by_cases hi : i % print_freq = 0
      · rw [if_pos hi] at h
        exact ⟨i, (List.mem_singleton.mp h)⟩
      · rw [if_neg hi] at h
        cases h
    · exact ih (i + 1) _ e h

/-- C8: `validate` processes each batch exactly once in order,
terminates after that one pass, and its output ends with the final
accuracy summary followed by the error summary, preceded only by
progress lines. -/
theorem claim_C8 (model : Batch → List (List ℚ)) (dur : ℕ → ℚ)
    (print_freq : ℕ) (batches : List Batch) :
    (validate model dur print_freq batches).2.2 = batches ∧
    ∃ pre,
      (validate model dur print_freq batches).2.1 =
        pre ++ [PrintEvent.accSummary
            (validate model dur print_freq batches).1.top1.avg
            (validate model dur print_freq batches).1.top5.avg,
          PrintEvent.errSummary
            (validate model dur print_freq batches).1.top1.err
            (validate model dur print_freq batches).1.top5.err] ∧
      ∀ e ∈ pre, ∃ j, e = PrintEvent.progress j := by
  refine ⟨?_, ?_⟩
  · show (validateLoop model dur print_freq 0 validateInit batches).2.2 = _
    exact validateLoop_trace model dur print_freq batches 0 validateInit
  · exact ⟨(validateLoop model dur print_freq 0 validateInit batches).2.1,
      rfl, validateLoop_events model dur print_freq batches 0 validateInit⟩

/-! ### main (imagenet.py lines 168-212) -/

/-- The `--format` flag accepts exactly the argparse choices. -/
def formatChoices : List String := ["torch", "onnx", "tensorrt"]

inductive OutputFormat
  | torch
  | onnx
  | tensorrt
deriving DecidableEq

/-- argparse validation of `--format`. -/
def parseFormat (s : String) : Option OutputFormat :=
  if s = "torch" then some OutputFormat.torch
  else if s = "onnx" then some OutputFormat.onnx
  else if s = "tensorrt" then some OutputFormat.tensorrt
  else none

inductive TorchModelRep
  | resnet18
deriving DecidableEq

inductive MainResult
  | onnxExported
  | validated (m : TorchModelRep)
deriving DecidableEq

inductive PyError
  | unboundLocalError
deriving DecidableEq

/-- The local variable `model` of `main` is assigned only inside the
`torch`/`onnx` branch (lines 199-202). -/
def mainModelBinding (fmt : OutputFormat) : Option TorchModelRep :=
  if fmt = OutputFormat.torch ∨ fmt = OutputFormat.onnx then
    some TorchModelRep.resnet18
  else none

/-- The tail of `main` after parsing (lines 199-212): the `onnx` branch
exports and returns; otherwise `validate(data_loader, model)` reads
`model`, which raises `UnboundLocalError` when it was never bound. -/
def mainDispatch (fmt : OutputFormat) : Except PyError MainResult :=
  if fmt = OutputFormat.onnx then Except.ok MainResult.onnxExported
  else
    match mainModelBinding fmt with
    | some m => Except.ok (MainResult.validated m)
    | none => Except.error PyError.unboundLocalError

/-- C6: the format flag accepts exactly `torch`, `onnx`, `tensorrt`;
under `tensorrt` no model is constructed and the run aborts with an
uncaught error at the validation call, while the other two formats
complete. -/
theorem claim_C6 :
    (∀ s : String, (parseFormat s).isSome = true ↔ s ∈ formatChoices) ∧
    mainModelBinding OutputFormat.tensorrt = none ∧
    mainDispatch OutputFormat.tensorrt =
      Except.error PyError.unboundLocalError ∧
    (∀ fmt, fmt ≠ OutputFormat.tensorrt →
      ∃ r, mainDispatch fmt = Except.ok r) := by
  refine ⟨?_, rfl, rfl, ?_⟩
  · intro s
    simp only [parseFormat, formatChoices]
    split_ifs with h1 h2 h3 <;> simp_all
  · intro fmt hne
    cases fmt with
    | torch => exact ⟨MainResult.validated TorchModelRep.resnet18, rfl⟩
    | onnx => exact ⟨MainResult.onnxExported, rfl⟩
    | tensorrt => exact absurd rfl hne

/-- Witness for C6: the `torch` format reaches validation. -/
theorem claim_C6_witness :
    ∃ r, mainDispatch OutputFormat.torch = Except.ok r :=
  claim_C6.2.2.2 OutputFormat.torch (by decide)

end ImagenetDeploy
